import Mathlib

/-!
Verification development for the `todo_app` indexed record store
(`src/main.rs`).

The development is a shallow embedding of the core of the program:

* `Record` mirrors the Rust struct `Record { index: u32, action: String,
  done: bool }` (indexes modelled as `Nat`; the spec treats them as
  abstract unsigned integers and no claim hinges on 32-bit wraparound).
* `checkLoop` / `check_file_get_last` mirror `check_file_get_last`, the
  load-time index-integrity check.
* `add_records` mirrors the append loop of `add_records`.
* `file_map` mirrors the record-level semantics of the selective-rewrite
  loop of `file_map`: the running output counter `i` starts at 1, the
  target-index set (a `HashSet<u32>` in Rust, modelled as `Finset Nat`)
  is consumed by `remove` during iteration, and `all || indexes.remove(..)`
  short-circuits, so the set is only mutated when `all` is false.
* `rm_records`, `mark_records`, `unmark_records`, `reset_records` are the
  four specializations, with the exact transform closures of the source.
* `Op` / `runOp` / `runOps` model one CLI invocation as `main` performs
  it: `check_file_get_last` first, then the subcommand.

A second, byte-and-error-level model (`file_map_go` / `file_map_fs`,
further below) models the file-system effects of `file_map`: the csv
encoding of written records, decode and write failures, the missing
`truncate(true)` on the `aux.csv` `OpenOptions` (pre-existing bytes of
`aux.csv` beyond what the pass writes survive), the final `rename`, and
the fact that nothing ever deletes `aux.csv` on a failed pass.
-/

deriving instance DecidableEq for Except

namespace Todo

/-- The Rust struct `Record { index: u32, action: String, done: bool }`. -/
structure Record where
  index : Nat
  action : String
  done : Bool
deriving DecidableEq, Repr

/-- The error `CsvIndexError` ("incorrect index found"). -/
inductive CsvIndexError where
  | mk
deriving DecidableEq, Repr

/-- The loop of `check_file_get_last`: walk the decoded records with an
expected counter `i`; `if i != record.index` fail, else `i += 1`;
return `i` after the loop. -/
def checkLoop : Nat → List Record → Except CsvIndexError Nat
  | i, [] => .ok i
  | i, r :: rs => if i ≠ r.index then .error .mk else checkLoop (i + 1) rs

/-- `check_file_get_last` at the record level.  `none` is a missing file:
it is created empty (`File::create`) and the next index is 1.  An existing
file is left as-is and validated by `checkLoop` starting at 1.  The first
component is the file contents after the call. -/
def check_file_get_last :
    Option (List Record) → Option (List Record) × Except CsvIndexError Nat
  | none => (some [], .ok 1)
  | some recs => (some recs, checkLoop 1 recs)

/-- The append loop of `add_records`: one record per input string, `done =
false`, indexes consecutive from the given start (`last`, then
`last += 1`). -/
def add_records : List String → Nat → List Record
  | [], _ => []
  | a :: rest, i => ⟨i, a, false⟩ :: add_records rest (i + 1)

/-- Record-level semantics of the `file_map` rewrite loop.  For each input
record in file order: it is selected iff `all` is true or its stored index
is removed from the target set (`all || indexes.remove(&record.index)`;
the `remove` is skipped when `all` short-circuits).  A selected record is
replaced by `f i record` (dropped when `none`, counter not incremented);
an unselected record is written as `Record { index: i, action, done }`.
`i` is incremented for every written record. -/
def file_map (f : Nat → Record → Option Record) (all : Bool) :
    Finset Nat → Nat → List Record → List Record
  | _, _, [] => []
  | s, i, r :: rs =>
    if all = true ∨ r.index ∈ s then
      match f i r with
      | some rec => rec :: file_map f all (if all then s else s.erase r.index) (i + 1) rs
      | none => file_map f all (if all then s else s.erase r.index) i rs
    else
      ⟨i, r.action, r.done⟩ :: file_map f all (s.erase r.index) (i + 1) rs

/-- `rm_records`: `file_map` with `all = false` and transform `|_, _| None`. -/
def rm_records (s : Finset Nat) (l : List Record) : List Record :=
  file_map (fun _ _ => none) false s 1 l

/-- `mark_records`: transform `|i, r| Some(Record { index: i, action: r.action.clone(), done: true })`. -/
def mark_records (s : Finset Nat) (all : Bool) (l : List Record) : List Record :=
  file_map (fun i r => some ⟨i, r.action, true⟩) all s 1 l

/-- `unmark_records`: same as `mark_records` with `done: false`. -/
def unmark_records (s : Finset Nat) (all : Bool) (l : List Record) : List Record :=
  file_map (fun i r => some ⟨i, r.action, false⟩) all s 1 l

/-- `reset_records`: `file_map` with set `{1}`, `all = true`, transform `|_, _| None`. -/
def reset_records (l : List Record) : List Record :=
  file_map (fun _ _ => none) true {1} 1 l

/-- One mutating CLI subcommand, as dispatched by `main`. -/
inductive Op where
  | add (names : List String)
  | rm (indexes : List Nat)
  | markDone (indexes : List Nat) (all : Bool)
  | markUndo (indexes : List Nat) (all : Bool)
  | reset
deriving DecidableEq, Repr

/-- One invocation of the program on an existing store: `main` first runs
`check_file_get_last` (whose `Ok` value is the starting index for `add`),
then dispatches the subcommand.  `HashSet::from_iter(indexes)` is the
deduplicated set `List.toFinset`. -/
def runOp (store : List Record) : Op → Except CsvIndexError (List Record) := fun op =>
  match checkLoop 1 store with
  | .error e => .error e
  | .ok last =>
    match op with
    | .add names => .ok (store ++ add_records names last)
    | .rm idxs => .ok (rm_records idxs.toFinset store)
    | .markDone idxs a => .ok (mark_records idxs.toFinset a store)
    | .markUndo idxs a => .ok (unmark_records idxs.toFinset a store)
    | .reset => .ok (reset_records store)

/-- A sequence of invocations, stopping at the first error. -/
def runOps : List Record → List Op → Except CsvIndexError (List Record)
  | store, [] => .ok store
  | store, op :: rest =>
    match runOp store op with
    | .error e => .error e
    | .ok s' => runOps s' rest

/-- The index-contiguity invariant: the stored indexes, in file order, are
exactly 1, 2, …, N. -/
def Inv (l : List Record) : Prop :=
  l.map Record.index = List.range' 1 l.length

instance (l : List Record) : Decidable (Inv l) := by
  unfold Inv; infer_instance

/-- Modelled from the spec (for claim C8): set the `done` flag of exactly
the selected records (targeted, or all when the `all` flag is set) to the
target value and change nothing else. -/
def setDoneSelected (b all : Bool) (s : Finset Nat) (l : List Record) : List Record :=
  l.map fun r => if all = true ∨ r.index ∈ s then ⟨r.index, r.action, b⟩ else r

/-- Pass-through renumbering: what `file_map` does to a run of unselected
records starting at output counter `i`. -/
def renumber : Nat → List Record → List Record
  | _, [] => []
  | i, r :: rs => ⟨i, r.action, r.done⟩ :: renumber (i + 1) rs

example :
    runOps [] [.add ["buy milk", "call mom"], .markDone [1] false, .rm [1]] =
      .ok [⟨1, "call mom", false⟩] := by decide

example : runOps [] [.add ["a", "b"], .reset] = .ok [] := by decide

example : checkLoop 1 [⟨1, "a", false⟩, ⟨3, "b", false⟩] = .error .mk := by decide

/-- The integrity walk from expected counter `j` either certifies that the
stored indexes are exactly `j, j+1, …` and returns `j + length`, or finds a
mismatch and fails. -/
lemma checkLoop_spec : ∀ (l : List Record) (j : Nat),
    (l.map Record.index = List.range' j l.length ∧ checkLoop j l = .ok (j + l.length)) ∨
    (l.map Record.index ≠ List.range' j l.length ∧ checkLoop j l = .error .mk)
  | [], j => by simp [checkLoop]
  | r :: rs, j => by
    by_cases hidx : j = r.index
    · rcases checkLoop_spec rs (j + 1) with ⟨h1, h2⟩ | ⟨h1, h2⟩
      · left
        constructor
        · simp [List.range'_succ, h1, hidx.symm]
        · have harith : j + 1 + rs.length = j + (rs.length + 1) := by omega
          simp only [checkLoop, if_neg (by omega : ¬j ≠ r.index), List.length_cons]
          rw [h2, harith]
      · right
        constructor
        · simp only [List.map_cons, List.length_cons, List.range'_succ]
          intro hcontra
          injection hcontra with _ htail
          exact h1 htail
        · simp only [checkLoop, if_neg (by omega : ¬j ≠ r.index)]
          exact h2
    · right
      constructor
      · simp only [List.map_cons, List.length_cons, List.range'_succ]
        intro hcontra
        injection hcontra with hhead _
        exact hidx hhead.symm
      · simp [checkLoop, hidx]
  termination_by l => l.length

/-- On an `Inv` store the integrity check succeeds and returns count + 1. -/
lemma checkLoop_ok (l : List Record) (hInv : Inv l) :
    checkLoop 1 l = .ok (1 + l.length) := by
  rcases checkLoop_spec l 1 with ⟨_, h⟩ | ⟨hne, _⟩
  · exact h
  · exact absurd hInv hne

/-- Any transform that either drops a record or emits one carrying the
current output counter produces output whose stored indexes are exactly
the counter values `i, i+1, …`. -/
lemma file_map_index (f : Nat → Record → Option Record)
    (hf : ∀ i r, f i r = none ∨ ∃ a d, f i r = some ⟨i, a, d⟩) (all : Bool) :
    ∀ (l : List Record) (s : Finset Nat) (i : Nat),
      (file_map f all s i l).map Record.index =
        List.range' i (file_map f all s i l).length
  | [], _, _ => by simp [file_map]
  | r :: rs, s, i => by
    unfold file_map
    by_cases hsel : all = true ∨ r.index ∈ s
    · rw [if_pos hsel]
      rcases hf i r with h | ⟨a, d, h⟩
      · rw [h]
        exact file_map_index f hf all rs _ i
      · rw [h]
        simp [List.range'_succ, file_map_index f hf all rs _ (i + 1)]
    · rw [if_neg hsel]
      simp [List.range'_succ, file_map_index f hf all rs _ (i + 1)]
  termination_by l => l.length

/-- A transform that never drops preserves the record count. -/
lemma file_map_length (f : Nat → Record → Option Record)
    (hf : ∀ i r, (f i r).isSome = true) (all : Bool) :
    ∀ (l : List Record) (s : Finset Nat) (i : Nat),
      (file_map f all s i l).length = l.length
  | [], _, _ => by simp [file_map]
  | r :: rs, s, i => by
    unfold file_map
    obtain ⟨v, hv⟩ := Option.isSome_iff_exists.mp (hf i r)
    by_cases hsel : all = true ∨ r.index ∈ s
    · rw [if_pos hsel, hv]
      simp [file_map_length f hf all rs _ (i + 1)]
    · rw [if_neg hsel]
      simp [file_map_length f hf all rs _ (i + 1)]
  termination_by l => l.length

lemma renumber_map_action : ∀ (l : List Record) (i : Nat),
    (renumber i l).map Record.action = l.map Record.action
  | [], _ => rfl
  | r :: rs, i => by simp [renumber, renumber_map_action rs (i + 1)]

lemma renumber_map_done : ∀ (l : List Record) (i : Nat),
    (renumber i l).map Record.done = l.map Record.done
  | [], _ => rfl
  | r :: rs, i => by simp [renumber, renumber_map_done rs (i + 1)]

lemma renumber_length : ∀ (l : List Record) (i : Nat), (renumber i l).length = l.length
  | [], _ => rfl
  | r :: rs, i => by simp [renumber, renumber_length rs (i + 1)]

lemma renumber_map_index : ∀ (l : List Record) (i : Nat),
    (renumber i l).map Record.index = List.range' i l.length
  | [], _ => rfl
  | r :: rs, i => by
    simp [renumber, List.range'_succ, renumber_map_index rs (i + 1)]

/-- Renumbering a list whose indexes already equal the counter values is
the identity. -/
lemma renumber_id : ∀ (l : List Record) (i : Nat),
    l.map Record.index = List.range' i l.length → renumber i l = l
  | [], _, _ => rfl
  | ⟨ri, ra, rd⟩ :: rs, i, h => by
    simp only [List.map_cons, List.length_cons, List.range'_succ] at h
    injection h with hhead htail
    simp only [renumber, hhead]
    rw [renumber_id rs (i + 1) htail]

/-- If no record of the input is in the target set and `all` is false,
the rewrite is a pure pass-through renumbering. -/
lemma file_map_not_mem (f : Nat → Record → Option Record) :
    ∀ (l : List Record) (s : Finset Nat) (i : Nat),
      (∀ r ∈ l, r.index ∉ s) → file_map f false s i l = renumber i l
  | [], _, _, _ => rfl
  | r :: rs, s, i, h => by
    have hr : r.index ∉ s := h r (List.mem_cons_self r rs)
    unfold file_map renumber
    rw [if_neg (by simp [hr])]
    congr 1
    refine file_map_not_mem f rs _ (i + 1) ?_
    intro r' hr' hmem
    exact h r' (List.mem_cons_of_mem _ hr') (Finset.mem_of_mem_erase hmem)
  termination_by l => l.length

lemma add_records_index : ∀ (texts : List String) (i : Nat),
    (add_records texts i).map Record.index = List.range' i texts.length
  | [], _ => rfl
  | t :: ts, i => by
    simp [add_records, List.range'_succ, add_records_index ts (i + 1)]

lemma add_records_action : ∀ (texts : List String) (i : Nat),
    (add_records texts i).map Record.action = texts
  | [], _ => rfl
  | t :: ts, i => by simp [add_records, add_records_action ts (i + 1)]

lemma add_records_length : ∀ (texts : List String) (i : Nat),
    (add_records texts i).length = texts.length
  | [], _ => rfl
  | t :: ts, i => by simp [add_records, add_records_length ts (i + 1)]

lemma add_records_done : ∀ (texts : List String) (i : Nat),
    ∀ r ∈ add_records texts i, r.done = false
  | t :: ts, i, r, hr => by
    rcases List.mem_cons.mp hr with h | h
    · rw [h]
    · exact add_records_done ts (i + 1) r h

lemma map_eraseIdx_comm {α : Type} (g : Record → α) :
    ∀ (l : List Record) (k : Nat), (l.eraseIdx k).map g = (l.map g).eraseIdx k
  | [], _ => rfl
  | r :: rs, 0 => rfl
  | r :: rs, k + 1 => by simp [List.eraseIdx, map_eraseIdx_comm g rs k]

/-- C2: the load-time integrity check walks the decoded records in file
order with an expected counter starting at 1 (so the expected values are
the sequence `List.range' 1 N`); it fails with the index-integrity error
iff some record's stored index differs from the expected counter (i.e.
iff the stored index sequence is not `List.range' 1 N`); on success it
returns the record count plus 1; a missing file is created empty with
next index 1. -/
theorem spec_c2 (recs : List Record) :
    (checkLoop 1 recs = .error .mk ↔
      recs.map Record.index ≠ List.range' 1 recs.length) ∧
    (recs.map Record.index = List.range' 1 recs.length →
      checkLoop 1 recs = .ok (recs.length + 1)) ∧
    check_file_get_last none = (some [], .ok 1) ∧
    check_file_get_last (some recs) = (some recs, checkLoop 1 recs) := by
  refine ⟨?_, ?_, rfl, rfl⟩
  · rcases checkLoop_spec recs 1 with ⟨h1, h2⟩ | ⟨h1, h2⟩
    · rw [h2]
      simp [h1]
    · rw [h2]
      simp [h1]
  · intro h
    have := checkLoop_ok recs h
    rw [this]
    have : 1 + recs.length = recs.length + 1 := by omega
    rw [this]

/-- Witness for C2 at a concrete well-indexed store. -/
theorem spec_c2_witness :
    checkLoop 1 [⟨1, "a", false⟩, ⟨2, "b", true⟩] = .ok 3 :=
  (spec_c2 [⟨1, "a", false⟩, ⟨2, "b", true⟩]).2.1 (by decide)

/-- C6: appending K task texts to a store of size N (starting index N + 1
supplied by the integrity check) writes exactly K new records with
`done = false` and indexes N+1 … N+K assigned in input order, leaving
every pre-existing record unchanged (the new file is the old records
followed by the new ones). -/
theorem spec_c6 (l : List Record) (hInv : Inv l) (texts : List String) :
    runOp l (.add texts) = .ok (l ++ add_records texts (l.length + 1)) ∧
    (add_records texts (l.length + 1)).length = texts.length ∧
    (add_records texts (l.length + 1)).map Record.action = texts ∧
    (add_records texts (l.length + 1)).map Record.index =
      List.range' (l.length + 1) texts.length ∧
    ∀ r ∈ add_records texts (l.length + 1), r.done = false := by
  refine ⟨?_, add_records_length texts _, add_records_action texts _,
    add_records_index texts _, add_records_done texts _⟩
  have hch := checkLoop_ok l hInv
  have harith : 1 + l.length = l.length + 1 := by omega
  simp [runOp, hch, harith]

/-- Witness for C6. -/
theorem spec_c6_witness :
    Inv [⟨1, "a", true⟩] ∧
    runOp [⟨1, "a", true⟩] (.add ["b", "c"]) =
      .ok [⟨1, "a", true⟩, ⟨2, "b", false⟩, ⟨3, "c", false⟩] :=
  ⟨by decide, (spec_c6 [⟨1, "a", true⟩] (by decide) ["b", "c"]).1⟩

/-- C9: on a store satisfying the contiguity invariant, requesting
removal, mark-done or mark-undone of target indexes none of which are
present leaves the record sequence unchanged and raises no error. -/
theorem spec_c9 (l : List Record) (hInv : Inv l) (idxs : List Nat)
    (hdisj : ∀ r ∈ l, r.index ∉ idxs.toFinset) :
    runOp l (.rm idxs) = .ok l ∧
    runOp l (.markDone idxs false) = .ok l ∧
    runOp l (.markUndo idxs false) = .ok l := by
  have hch := checkLoop_ok l hInv
  have hid := renumber_id l 1 hInv
  have h1 : rm_records idxs.toFinset l = l := by
    unfold rm_records
    rw [file_map_not_mem _ l _ 1 hdisj, hid]
  have h2 : mark_records idxs.toFinset false l = l := by
    unfold mark_records
    rw [file_map_not_mem _ l _ 1 hdisj, hid]
  have h3 : unmark_records idxs.toFinset false l = l := by
    unfold unmark_records
    rw [file_map_not_mem _ l _ 1 hdisj, hid]
  simp [runOp, hch, h1, h2, h3]

/-- Witness for C9: index 5 is absent from a two-record store. -/
theorem spec_c9_witness :
    Inv [⟨1, "a", false⟩, ⟨2, "b", true⟩] ∧
    runOp [⟨1, "a", false⟩, ⟨2, "b", true⟩] (.rm [5]) =
      .ok [⟨1, "a", false⟩, ⟨2, "b", true⟩] :=
  ⟨by decide,
    (spec_c9 [⟨1, "a", false⟩, ⟨2, "b", true⟩] (by decide) [5] (by decide)).1⟩

/-- The remove pass with target set `{i}` on a suffix whose indexes are
`j, j+1, …` with `j ≤ i < j + length`: the record carrying `i` is dropped
and everything else is renumbered from the output counter `c`. -/
lemma rm_aux : ∀ (l : List Record) (j c i : Nat),
    l.map Record.index = List.range' j l.length →
    j ≤ i → i < j + l.length →
    file_map (fun _ _ => none) false {i} c l = renumber c (l.eraseIdx (i - j))
  | [], j, _, i, _, h1, h2 => by
    simp only [List.length_nil, Nat.add_zero] at h2
    omega
  | r :: rs, j, c, i, hmap, h1, h2 => by
    simp only [List.map_cons, List.length_cons, List.range'_succ] at hmap
    simp only [List.length_cons] at h2
    injection hmap with hr hrs
    by_cases hij : i = j
    · subst hij
      have hsel : (false = true ∨ r.index ∈ ({i} : Finset Nat)) := by
        right
        rw [hr]
        exact Finset.mem_singleton_self i
      have herase : ({i} : Finset Nat).erase r.index = ∅ := by
        rw [hr]
        exact Finset.erase_singleton i
      rw [Nat.sub_self]
      unfold file_map
      rw [if_pos hsel]
      show file_map (fun _ _ => none) false (({i} : Finset Nat).erase r.index) c rs =
        renumber c rs
      rw [herase]
      exact file_map_not_mem _ rs ∅ c (by simp)
    · have hnotsel : ¬(false = true ∨ r.index ∈ ({i} : Finset Nat)) := by
        rw [hr]
        simp only [Finset.mem_singleton]
        push_neg
        exact ⟨by simp, by omega⟩
      have herase : ({i} : Finset Nat).erase r.index = {i} := by
        refine Finset.erase_eq_of_not_mem ?_
        rw [hr]
        simp only [Finset.mem_singleton]
        omega
      unfold file_map
      rw [if_neg hnotsel]
      have hsub : i - j = (i - (j + 1)) + 1 := by omega
      rw [hsub]
      show (⟨c, r.action, r.done⟩ : Record) ::
          file_map (fun _ _ => none) false (({i} : Finset Nat).erase r.index) (c + 1) rs =
        (⟨c, r.action, r.done⟩ : Record) :: renumber (c + 1) (rs.eraseIdx (i - (j + 1)))
      congr 1
      rw [herase]
      exact rm_aux rs (j + 1) (c + 1) i hrs (by omega) (by omega)
  termination_by l => l.length

/-- C7: on a store of size N satisfying the contiguity invariant,
removing a present index i yields a store of size N-1 whose surviving
records retain their relative order, text and done flag (the projections
are `eraseIdx` of the originals) and are renumbered contiguously as
1..N-1. -/
theorem spec_c7 (l : List Record) (hInv : Inv l) (i : Nat)
    (h1 : 1 ≤ i) (h2 : i ≤ l.length) :
    rm_records {i} l = renumber 1 (l.eraseIdx (i - 1)) ∧
    (rm_records {i} l).length = l.length - 1 ∧
    (rm_records {i} l).map Record.action = (l.map Record.action).eraseIdx (i - 1) ∧
    (rm_records {i} l).map Record.done = (l.map Record.done).eraseIdx (i - 1) ∧
    (rm_records {i} l).map Record.index = List.range' 1 (l.length - 1) := by
  have heq : rm_records {i} l = renumber 1 (l.eraseIdx (i - 1)) := by
    unfold rm_records
    exact rm_aux l 1 1 i hInv h1 (by omega)
  have hlen : (l.eraseIdx (i - 1)).length = l.length - 1 := by
    rw [List.length_eraseIdx]
    rw [if_pos (by omega)]
  refine ⟨heq, ?_, ?_, ?_, ?_⟩
  · rw [heq, renumber_length, hlen]
  · rw [heq, renumber_map_action, map_eraseIdx_comm]
  · rw [heq, renumber_map_done, map_eraseIdx_comm]
  · rw [heq, renumber_map_index, hlen]

/-- Witness for C7: removing index 1 from a two-record store. -/
theorem spec_c7_witness :
    Inv [⟨1, "a", false⟩, ⟨2, "b", true⟩] ∧
    rm_records {1} [⟨1, "a", false⟩, ⟨2, "b", true⟩] =
      renumber 1 ([⟨1, "a", false⟩, ⟨2, "b", true⟩].eraseIdx 0) :=
  ⟨by decide,
    (spec_c7 [⟨1, "a", false⟩, ⟨2, "b", true⟩] (by decide) 1
      (by decide) (by decide)).1⟩

/-- Erasing an index carried by no record of the list does not change
which records the spec-side transform selects. -/
lemma setDoneSelected_erase (b all : Bool) (x : Nat) :
    ∀ (l : List Record) (s : Finset Nat), (∀ r ∈ l, r.index ≠ x) →
      setDoneSelected b all (s.erase x) l = setDoneSelected b all s l := by
  intro l s h
  unfold setDoneSelected
  refine List.map_congr_left ?_
  intro r hr
  have : r.index ∈ s.erase x ↔ r.index ∈ s := by
    rw [Finset.mem_erase]
    have := h r hr
    tauto
  rw [if_congr (or_congr Iff.rfl this) rfl rfl]

/-- The done/undo rewrite on a suffix whose indexes are the counter
values `j, j+1, …` equals the spec-side transform: selected records get
`done := b`, everything else (index, text, order) is unchanged. -/
lemma setDoneSelected_cons (b all : Bool) (s : Finset Nat) (r : Record) (rs : List Record) :
    setDoneSelected b all s (r :: rs) =
      (if all = true ∨ r.index ∈ s then (⟨r.index, r.action, b⟩ : Record) else r) ::
        setDoneSelected b all s rs := rfl

lemma mark_eq (b : Bool) : ∀ (all : Bool) (l : List Record) (s : Finset Nat) (j : Nat),
      l.map Record.index = List.range' j l.length →
      file_map (fun i r => some ⟨i, r.action, b⟩) all s j l = setDoneSelected b all s l
  | _, [], _, _, _ => rfl
  | all, ⟨ri, ra, rd⟩ :: rs, s, j, h => by
    simp only [List.map_cons, List.length_cons, List.range'_succ] at h
    injection h with hr hrs
    subst hr
    have hnot : ∀ r' ∈ rs, r'.index ≠ (Record.mk ri ra rd).index := by
      intro r' hr' heq
      have hmem : r'.index ∈ List.range' (ri + 1) rs.length := by
        rw [← hrs]
        exact List.mem_map_of_mem Record.index hr'
      rw [List.mem_range'_1] at hmem
      simp only at heq
      omega
    rw [setDoneSelected_cons]
    unfold file_map
    by_cases hsel : all = true ∨ (Record.mk ri ra rd).index ∈ s
    · rw [if_pos hsel, if_pos hsel]
      show (⟨ri, ra, b⟩ : Record) ::
          file_map (fun i r => some ⟨i, r.action, b⟩) all
            (if all then s else s.erase (Record.mk ri ra rd).index) (ri + 1) rs =
        (⟨ri, ra, b⟩ : Record) :: setDoneSelected b all s rs
      congr 1
      cases all
      · show file_map (fun i r => some ⟨i, r.action, b⟩) false
            (s.erase (Record.mk ri ra rd).index) (ri + 1) rs = setDoneSelected b false s rs
        rw [mark_eq b false rs (s.erase (Record.mk ri ra rd).index) (ri + 1) hrs]
        exact setDoneSelected_erase b false _ rs s hnot
      · show file_map (fun i r => some ⟨i, r.action, b⟩) true s (ri + 1) rs =
          setDoneSelected b true s rs
        exact mark_eq b true rs s (ri + 1) hrs
    · rw [if_neg hsel, if_neg hsel]
      congr 1
      rw [mark_eq b all rs (s.erase (Record.mk ri ra rd).index) (ri + 1) hrs]
      exact setDoneSelected_erase b all _ rs s hnot
  termination_by _ l => l.length

/-- C8: done and undo set the done flag of exactly the selected records
(targeted, or all when the `all` flag is set) to the target value and
change nothing else — text, relative order, size (and even index) are
preserved; marking an already-done store done again is the identity. -/
theorem spec_c8 (l : List Record) (hInv : Inv l) (s : Finset Nat) (all : Bool) :
    mark_records s all l = setDoneSelected true all s l ∧
    unmark_records s all l = setDoneSelected false all s l ∧
    ((∀ r ∈ l, r.done = true) → mark_records s all l = l) := by
  refine ⟨mark_eq true all l s 1 hInv, mark_eq false all l s 1 hInv, ?_⟩
  intro hdone
  unfold mark_records
  rw [mark_eq true all l s 1 hInv]
  unfold setDoneSelected
  have : ∀ r ∈ l,
      (if all = true ∨ r.index ∈ s then (⟨r.index, r.action, true⟩ : Record) else r) =
        id r := by
    intro r hr
    by_cases hc : all = true ∨ r.index ∈ s
    · rw [if_pos hc]
      obtain ⟨ri, ra, rd⟩ := r
      have := hdone _ hr
      simp only [id]
      simp only at this
      rw [this]
    · rw [if_neg hc]
      rfl
  rw [List.map_congr_left this, List.map_id]

/-- Witness for C8: mark index 2 done on a concrete store. -/
theorem spec_c8_witness :
    Inv [⟨1, "x", false⟩, ⟨2, "y", false⟩] ∧
    mark_records {2} false [⟨1, "x", false⟩, ⟨2, "y", false⟩] =
      setDoneSelected true false {2} [⟨1, "x", false⟩, ⟨2, "y", false⟩] :=
  ⟨by decide,
    (spec_c8 [⟨1, "x", false⟩, ⟨2, "y", false⟩] (by decide) {2} false).1⟩

/-- C10: a selective rewrite whose transform never drops and always emits
a record carrying the current output counter (as the done/undo transforms
do) leaves every record's stored index unchanged on a store satisfying
the contiguity invariant: the renumbering is the identity, so `done` and
`undo` never change any index. -/
theorem spec_c10 (f : Nat → Record → Option Record)
    (hf : ∀ i r, ∃ a d, f i r = some ⟨i, a, d⟩)
    (l : List Record) (hInv : Inv l) (s : Finset Nat) (all : Bool) :
    (file_map f all s 1 l).map Record.index = l.map Record.index ∧
    (mark_records s all l).map Record.index = l.map Record.index ∧
    (unmark_records s all l).map Record.index = l.map Record.index := by
  have key : ∀ (g : Nat → Record → Option Record),
      (∀ i r, ∃ a d, g i r = some ⟨i, a, d⟩) →
      (file_map g all s 1 l).map Record.index = l.map Record.index := by
    intro g hg
    have hidx := file_map_index g (fun i r => Or.inr (hg i r)) all l s 1
    have hlen : (file_map g all s 1 l).length = l.length := by
      refine file_map_length g ?_ all l s 1
      intro i r
      obtain ⟨a, d, h⟩ := hg i r
      simp [h]
    rw [hidx, hlen, hInv]
  exact ⟨key f hf,
    key _ (fun i r => ⟨r.action, true, rfl⟩),
    key _ (fun i r => ⟨r.action, false, rfl⟩)⟩

/-- Witness for C10 at the done transform on a concrete store. -/
theorem spec_c10_witness :
    Inv [⟨1, "x", false⟩, ⟨2, "y", true⟩] ∧
    (mark_records {2} false [⟨1, "x", false⟩, ⟨2, "y", true⟩]).map Record.index =
      [⟨1, "x", false⟩, ⟨2, "y", true⟩].map Record.index :=
  ⟨by decide,
    (spec_c10 (fun i r => some ⟨i, r.action, true⟩)
      (fun i r => ⟨r.action, true, rfl⟩)
      [⟨1, "x", false⟩, ⟨2, "y", true⟩] (by decide) {2} false).2.1⟩

/-- Every single invocation on an `Inv` store succeeds and re-establishes
`Inv`. -/
lemma runOp_inv (l : List Record) (hInv : Inv l) (op : Op) :
    ∃ l', runOp l op = .ok l' ∧ Inv l' := by
  have hch := checkLoop_ok l hInv
  have hdrop : ∀ (i : Nat) (r : Record),
      (fun (_ : Nat) (_ : Record) => (none : Option Record)) i r = none ∨
        ∃ a d, (fun (_ : Nat) (_ : Record) => (none : Option Record)) i r = some ⟨i, a, d⟩ :=
    fun _ _ => Or.inl rfl
  have hmark : ∀ (b : Bool) (i : Nat) (r : Record),
      (fun (i : Nat) (r : Record) => some (⟨i, r.action, b⟩ : Record)) i r = none ∨
        ∃ a d, (fun (i : Nat) (r : Record) => some (⟨i, r.action, b⟩ : Record)) i r =
          some ⟨i, a, d⟩ :=
    fun b i r => Or.inr ⟨r.action, b, rfl⟩
  cases op with
  | add names =>
    refine ⟨l ++ add_records names (1 + l.length), by simp [runOp, hch], ?_⟩
    unfold Inv
    rw [List.map_append, hInv, add_records_index, List.length_append,
      add_records_length, List.range'_append_1 1 l.length names.length]
    congr 1
    omega
  | rm idxs =>
    refine ⟨rm_records idxs.toFinset l, by simp [runOp, hch], ?_⟩
    exact file_map_index _ hdrop false l idxs.toFinset 1
  | markDone idxs a =>
    refine ⟨mark_records idxs.toFinset a l, by simp [runOp, hch], ?_⟩
    exact file_map_index _ (hmark true) a l idxs.toFinset 1
  | markUndo idxs a =>
    refine ⟨unmark_records idxs.toFinset a l, by simp [runOp, hch], ?_⟩
    exact file_map_index _ (hmark false) a l idxs.toFinset 1
  | reset =>
    refine ⟨reset_records l, by simp [runOp, hch], ?_⟩
    exact file_map_index _ hdrop true l {1} 1

lemma runOps_inv : ∀ (ops : List Op) (l : List Record), Inv l →
    ∃ store, runOps l ops = .ok store ∧ Inv store
  | [], l, h => ⟨l, rfl, h⟩
  | op :: rest, l, h => by
    obtain ⟨l', h1, h2⟩ := runOp_inv l h op
    obtain ⟨store, h3, h4⟩ := runOps_inv rest l' h2
    exact ⟨store, by simp [runOps, h1, h3], h4⟩

lemma range'_one_toFinset (n : Nat) :
    (List.range' 1 n).toFinset = Finset.Icc 1 n := by
  ext m
  simp only [List.mem_toFinset, List.mem_range'_1, Finset.mem_Icc]
  omega

/-- C1: for every sequence of supported operations (add, rm, done, undo,
reset) starting from an empty store, every operation completes
successfully, and after it the set of indexes present is exactly
`Finset.Icc 1 N` where N is the record count (every prefix of `ops` is
itself such a sequence, so the invariant holds after each step). -/
theorem spec_c1 (ops : List Op) :
    ∃ store, runOps [] ops = .ok store ∧
      (store.map Record.index).toFinset = Finset.Icc 1 store.length := by
  obtain ⟨store, h1, h2⟩ := runOps_inv ops [] (by decide)
  refine ⟨store, h1, ?_⟩
  rw [h2, range'_one_toFinset]

/-- One entry of the csv reader's `deserialize` stream: a line decoded
into a record, or a line that fails to decode. -/
inductive Item where
  | line (r : Record)
  | bad
deriving DecidableEq, Repr

/-- The fatal error classes of a rewrite pass: a decode failure while
reading, an I/O failure while writing, an I/O failure of the final
rename. -/
inductive RwError where
  | decodeErr
  | writeErr
  | renameErr
deriving DecidableEq, Repr

/-- Decimal digits of a number, as the csv writer prints an index. -/
def natChars (n : Nat) : List Char := Nat.toDigits 10 n

/-- csv field quoting (quote style "necessary"): a field is quoted iff it
contains a delimiter, a quote or a record terminator; contained quotes
are doubled. -/
def escapeField (s : List Char) : List Char :=
  if s.any fun c => c == ',' || c == '"' || c == '\n' || c == '\r' then
    '"' :: s.flatMap (fun c => if c = '"' then ['"', '"'] else [c]) ++ ['"']
  else s

/-- One serialized record: `index,action,done` and the `\n` terminator,
with `done` printed as `true`/`false`. -/
def encodeRecord (r : Record) : List Char :=
  natChars r.index ++ [','] ++ escapeField r.action.toList ++ [','] ++
    (if r.done then "true".toList else "false".toList) ++ ['\n']

/-- Split a character list at every occurrence of `c`. -/
def splitOnChar (c : Char) : List Char → List (List Char)
  | [] => [[]]
  | x :: xs =>
    match splitOnChar c xs with
    | [] => [[]]
    | h :: t => if x = c then [] :: h :: t else (x :: h) :: t

/-- Parse an unsigned decimal integer field. -/
def parseDigits (l : List Char) : Option Nat :=
  if !l.isEmpty && l.all (fun c => c.isDigit) then
    some (l.foldl (fun a c => a * 10 + (c.toNat - 48)) 0)
  else none

/-- Decode one csv line into the three fields of a `Record` (unquoted
fields; the concrete inputs used below contain no quoting). -/
def decodeLine (l : List Char) : Item :=
  match splitOnChar ',' l with
  | [iF, aF, dF] =>
    match parseDigits iF with
    | some n =>
      if dF = "true".toList then .line ⟨n, String.mk aF, true⟩
      else if dF = "false".toList then .line ⟨n, String.mk aF, false⟩
      else .bad
    | none => .bad
  | _ => .bad

/-- Decode a whole file: one record per non-empty line. -/
def decodeFile (content : List Char) : List Item :=
  ((splitOnChar '\n' content).filter fun l => !l.isEmpty).map decodeLine

/-- The two files `file_map` touches: the decode stream of the store path
and the contents of the sibling `aux.csv` (`none` = no such file). -/
structure FS where
  store : List Item
  aux : Option (List Char)
deriving DecidableEq, Repr

/-- The rewrite pass of `file_map` with its failure points: `deserialize`
of a bad line is a fatal decode error; `serialize` number `w` fails iff
`wf w` (a write-failure oracle); `acc` is the byte prefix successfully
written to `aux.csv` so far.  Selection and renumbering are as in the
record-level `file_map`. -/
def file_map_go (f : Nat → Record → Option Record) (all : Bool) (wf : Nat → Bool) :
    Finset Nat → Nat → Nat → List Item → List Char → List Char × Option RwError
  | _, _, _, [], acc => (acc, none)
  | _, _, _, .bad :: _, acc => (acc, some .decodeErr)
  | s, i, w, .line r :: rest, acc =>
    if all = true ∨ r.index ∈ s then
      match f i r with
      | some rec =>
        if wf w then (acc, some .writeErr)
        else file_map_go f all wf (if all then s else s.erase r.index) (i + 1) (w + 1)
          rest (acc ++ encodeRecord rec)
      | none => file_map_go f all wf (if all then s else s.erase r.index) i w rest acc
    else
      if wf w then (acc, some .writeErr)
      else file_map_go f all wf (s.erase r.index) (i + 1) (w + 1) rest
        (acc ++ encodeRecord ⟨i, r.action, r.done⟩)

/-- Whole-command effect of `file_map` on the file system.  The writer
opens `aux.csv` with create+write but without truncate, so pre-existing
bytes of `aux.csv` beyond the prefix the pass writes survive
(`acc ++ old.drop acc.length`).  On success the original file is
replaced by `aux.csv` via `rename` — the only mutation of the store path,
which also removes the file at the aux path.  On any error the function
returns before the rename and nothing deletes `aux.csv`. -/
def file_map_fs (f : Nat → Record → Option Record) (all : Bool) (s : Finset Nat)
    (wf : Nat → Bool) (renameFail : Bool) (fs : FS) : FS × Except RwError Unit :=
  match file_map_go f all wf s 1 0 fs.store [] with
  | (acc, some e) =>
    (⟨fs.store, some (acc ++ (fs.aux.getD []).drop acc.length)⟩, .error e)
  | (acc, none) =>
    if renameFail then
      (⟨fs.store, some (acc ++ (fs.aux.getD []).drop acc.length)⟩, .error .renameErr)
    else
      (⟨decodeFile (acc ++ (fs.aux.getD []).drop acc.length), none⟩, .ok ())

/-- C3: if any read, decode, or write error occurs during a
selective-rewrite pass (and likewise if the rename itself fails), the
command aborts without performing the rename and the file at the store
path keeps its contents; the rename is the only mutation of the visible
path. -/
theorem spec_c3 (f : Nat → Record → Option Record) (all : Bool) (s : Finset Nat)
    (wf : Nat → Bool) (renameFail : Bool) (fs : FS) (e : RwError)
    (h : (file_map_fs f all s wf renameFail fs).2 = .error e) :
    (file_map_fs f all s wf renameFail fs).1.store = fs.store := by
  unfold file_map_fs at h ⊢
  rcases hgo : file_map_go f all wf s 1 0 fs.store [] with ⟨acc, err⟩
  cases err with
  | some e' => rfl
  | none =>
    cases renameFail with
    | true => rfl
    | false =>
      rw [hgo] at h
      simp at h

/-- Witness for C3: a decode error on the second line aborts with the
store stream intact. -/
theorem spec_c3_witness :
    (file_map_fs (fun _ _ => none) false ∅ (fun _ => false) false
        ⟨[.line ⟨1, "a", false⟩, .bad], none⟩).2 = .error .decodeErr ∧
    (file_map_fs (fun _ _ => none) false ∅ (fun _ => false) false
        ⟨[.line ⟨1, "a", false⟩, .bad], none⟩).1.store = [.line ⟨1, "a", false⟩, .bad] :=
  ⟨by decide,
    spec_c3 (fun _ _ => none) false ∅ (fun _ => false) false
      ⟨[.line ⟨1, "a", false⟩, .bad], none⟩ .decodeErr (by decide)⟩

/-- C4 fails on the code: `aux.csv` is opened with create+write but
without truncate, and its name is fixed rather than fresh, so content
previously existing at the temporary path survives the rewrite.  Here the
store holds the single record `(1, buy, false)` and `rm 1` is executed
while a stale `aux.csv` containing `9,stale,true\n` exists: the rewrite
pass produces no records (first conjunct), yet after the successful
rename the store path holds the stale record instead of exactly the
pass's (empty) output. -/
theorem spec_c4_bug :
    file_map (fun _ _ => none) false {1} 1 [⟨1, "buy", false⟩] = [] ∧
    (file_map_fs (fun _ _ => none) false {1} (fun _ => false) false
        ⟨[.line ⟨1, "buy", false⟩], some "9,stale,true\n".toList⟩).2 = .ok () ∧
    (file_map_fs (fun _ _ => none) false {1} (fun _ => false) false
        ⟨[.line ⟨1, "buy", false⟩], some "9,stale,true\n".toList⟩).1.store =
      [.line ⟨9, "stale", true⟩] :=
  ⟨by decide, by decide, by decide⟩

/-- C5 as stated is false on the code: nothing ever deletes `aux.csv`.
After a decode error on the second line (a step before the rename), the
command aborts but the temporary file still exists, holding the one
record already written. -/
theorem spec_c5_counterexample :
    (file_map_fs (fun i r => some ⟨i, r.action, true⟩) false ∅ (fun _ => false) false
        ⟨[.line ⟨1, "a", false⟩, .bad], none⟩).2 = .error .decodeErr ∧
    (file_map_fs (fun i r => some ⟨i, r.action, true⟩) false ∅ (fun _ => false) false
        ⟨[.line ⟨1, "a", false⟩, .bad], none⟩).1.aux ≠ none :=
  ⟨by decide, by decide⟩

/-- C5 amended: if any step of a selective rewrite before the rename
fails (and likewise if the rename fails), the command aborts leaving the
original file unchanged, but the temporary file `aux.csv` is NOT cleaned
up — it remains on disk with the bytes written so far (over any stale
suffix). -/
theorem spec_c5_amended (f : Nat → Record → Option Record) (all : Bool)
    (s : Finset Nat) (wf : Nat → Bool) (renameFail : Bool) (fs : FS) (e : RwError)
    (h : (file_map_fs f all s wf renameFail fs).2 = .error e) :
    (file_map_fs f all s wf renameFail fs).1.store = fs.store ∧
    ∃ content, (file_map_fs f all s wf renameFail fs).1.aux = some content := by
  unfold file_map_fs at h ⊢
  rcases hgo : file_map_go f all wf s 1 0 fs.store [] with ⟨acc, err⟩
  cases err with
  | some e' => exact ⟨rfl, _, rfl⟩
  | none =>
    cases renameFail with
    | true => exact ⟨rfl, _, rfl⟩
    | false =>
      rw [hgo] at h
      simp at h

/-- Witness for the amended C5: the very first serialize call fails, the
pass aborts, the store stream is intact and `aux.csv` still exists (with
its stale byte, which the failed pass never overwrote). -/
theorem spec_c5_witness :
    (file_map_fs (fun _ _ => none) false ∅ (fun _ => true) false
        ⟨[.line ⟨1, "b", true⟩], some ['z']⟩).2 = .error .writeErr ∧
    (file_map_fs (fun _ _ => none) false ∅ (fun _ => true) false
        ⟨[.line ⟨1, "b", true⟩], some ['z']⟩).1.store = [.line ⟨1, "b", true⟩] ∧
    ∃ content,
      (file_map_fs (fun _ _ => none) false ∅ (fun _ => true) false
        ⟨[.line ⟨1, "b", true⟩], some ['z']⟩).1.aux = some content :=
  ⟨by decide,
    (spec_c5_amended (fun _ _ => none) false ∅ (fun _ => true) false
      ⟨[.line ⟨1, "b", true⟩], some ['z']⟩ .writeErr (by decide)).1,
    (spec_c5_amended (fun _ _ => none) false ∅ (fun _ => true) false
      ⟨[.line ⟨1, "b", true⟩], some ['z']⟩ .writeErr (by decide)).2⟩

end Todo
